import Mathlib

/-!
Verification of the modena/nodclust position-indexed signal comparison
pipeline.  The Python sources under `src/nodclust/` (with the historical
`src/signals/` revision where a claim refers to it) are embedded shallowly:

* `Fast5` keeps the genomic position span `(start, end)`; the remaining
  dataclass fields (`path`, `acid`, `strand`, `chromosome`) only feed the
  record-source filters, which none of the verified operations read.
* Python `int` becomes `Nat`/`Int`; the `float` signal and statistic values
  are embedded as `Int`, since the pipeline only concatenates, sums and
  compares them and every verified numeric scenario uses exact values.
* Generators become lists; a generator that can raise is a list paired with
  an optional error (`AssertionError`), the emissions before the raise kept.
* The process-global `np.random` generator becomes an explicit state (seed
  and draw counter) threaded through the aggregation in a fixed
  deterministic order, with an abstract seeded index stream `rand`.
-/

namespace Modena

/-- A parsed FAST5 file record, reduced to its genomic position span.  In
`src/nodclust/fast5.py` the `Fast5` dataclass additionally carries `path`,
`acid`, `strand` and `chromosome`, which are used only by the record-source
filters and never by `overlap`, `_concat` or the pruning passes embedded
here.  The spec invariant `start < end` is stated as a hypothesis where a
claim needs it. -/
structure Fast5 where
  start : Nat
  end_ : Nat
deriving DecidableEq

/-- The sort/search key `(f.start, -f.end)` used by `Fast5.overlap` and by
`_index_datasets` in `src/nodclust/run.py`. -/
def key (f : Fast5) : Nat × Int := (f.start, -(f.end_ : Int))

/-- Python tuple `<` on keys: lexicographic order on `ℕ × ℤ`. -/
def kLt (p q : Nat × Int) : Prop := p.1 < q.1 ∨ (p.1 = q.1 ∧ p.2 < q.2)

/-- Python tuple `<=` on keys: lexicographic order on `ℕ × ℤ`. -/
def kLe (p q : Nat × Int) : Prop := p.1 < q.1 ∨ (p.1 = q.1 ∧ p.2 ≤ q.2)

instance instDecKLt : ∀ p q, Decidable (kLt p q) := fun p q => by
  unfold kLt; infer_instance

instance instDecKLe : ∀ p q, Decidable (kLe p q) := fun p q => by
  unfold kLe; infer_instance

/-- The loop of CPython `bisect.bisect_left(a, x, lo, hi)`: binary search for
the leftmost insertion point of `x` in `a`.  The `while lo < hi` loop is
embedded with a fuel argument so that it stays structurally recursive; any
fuel of at least `hi - lo` replays the loop exactly. -/
def bisectLoop (a : List (Nat × Int)) (x : Nat × Int) : Nat → Nat → Nat → Nat
  | 0, lo, _ => lo
  | fuel + 1, lo, hi =>
    if lo < hi then
      if kLt (a.getD ((lo + hi) / 2) (0, 0)) x then bisectLoop a x fuel ((lo + hi) / 2 + 1) hi
      else bisectLoop a x fuel lo ((lo + hi) / 2)
    else lo

/-- Python `bisect_left(a, x)` over the whole list (`lo = 0`, `hi = len(a)`;
the list length is enough fuel for the loop to run to completion). -/
def bisect_left (a : List (Nat × Int)) (x : Nat × Int) : Nat :=
  bisectLoop a x a.length 0 a.length

/-- The genuine interval-overlap condition tested inside `Fast5.overlap`:
`self.start < f.end and f.start < self.end`. -/
def overlaps (a b : Fast5) : Prop := a.start < b.end_ ∧ b.start < a.end_

instance instDecOverlaps : ∀ a b, Decidable (overlaps a b) := fun a b => by
  unfold overlaps; infer_instance

/-- The scan loop of `Fast5.overlap` (`for i in range(max(j-1,0), len(fasts))`
with its `break` on `f.start >= self.end`), acting on the suffix of the list
that the loop visits. -/
def overlapGo (self : Fast5) : List Fast5 → Option Fast5
  | [] => none
  | f :: rest =>
    if self.end_ ≤ f.start then none
    else if self.start < f.end_ ∧ f.start < self.end_ then some f
    else overlapGo self rest

/-- `Fast5.overlap` from `src/nodclust/fast5.py` lines 113-121: binary-search
the `(start, -end)` keys for the insertion point of `self`'s key, then scan
left-to-right from one position before it (`max(j - 1, 0)` is `j - 1` in
truncated `Nat` subtraction). -/
def Fast5.overlap (self : Fast5) (fasts : List Fast5) : Option Fast5 :=
  overlapGo self (fasts.drop (bisect_left (fasts.map key) (key self) - 1))

/-- The `(start, -end)` record order used when `_index_datasets` sorts a
dataset. -/
def ovLe (f g : Fast5) : Prop := kLe (key f) (key g)

instance instDecOvLe : DecidableRel ovLe := fun f g => by
  unfold ovLe; infer_instance

/-- Python's stable `list.sort(key=lambda f: (f.start, -f.end))`, embedded as
a stable insertion sort on the same order. -/
def sortOv (l : List Fast5) : List Fast5 := List.insertionSort ovLe l

/-- The two-pass mutual pruning inside `_index_datasets`
(`src/nodclust/run.py` lines 75-115), with the I/O and filter plumbing
stripped: sort dataset `A`, keep the records of `B` that overlap it, sort the
survivors, then keep the records of `A` that overlap the surviving `B`. -/
def prune (A B : List Fast5) : List Fast5 × List Fast5 :=
  let As := sortOv A
  let B1s := sortOv (B.filter (fun y => (Fast5.overlap y As).isSome))
  (As.filter (fun x => (Fast5.overlap x B1s).isSome), B1s)

/-- A concatenated signal at a certain position: the `Signal` dataclass of
`src/nodclust/concat.py`. -/
structure Signal where
  position : Nat
  coverage : Nat
  data : List Int
deriving DecidableEq

/-- The `(f.start, f.end)` record order used by `_concat`'s sort. -/
def catLe (f g : Fast5) : Prop :=
  f.start < g.start ∨ (f.start = g.start ∧ f.end_ ≤ g.end_)

instance instDecCatLe : DecidableRel catLe := fun f g => by
  unfold catLe; infer_instance

/-- Python's stable `fasts.sort(key=lambda f: (f.start, f.end))`. -/
def sortCat (l : List Fast5) : List Fast5 := List.insertionSort catLe l

/-- The position-skipping guard at the top of `_concat_range`:
`from_position is not None and from_position - 5 > i + 1 or
 to_position is not None and i + 1 > to_position + 5`
(Python `and` binds tighter than `or`). -/
def skipPosition (i : Nat) (from_position to_position : Option Nat) : Bool :=
  (match from_position with
   | some fp => decide ((fp : Int) - 5 > (i : Int) + 1)
   | none => false) ||
  (match to_position with
   | some tp => decide ((i : Int) + 1 > (tp : Int) + 5)
   | none => false)

/-- `_concat_range` from `src/nodclust/concat.py` lines 81-110.  For each
position of `range(start, end)` that passes the bounds guard, collect the
records containing the position, concatenate their per-position fragments
(`sigAt f i resample` stands for `f.signal_at(i, resample)`) and emit the
sample when its coverage meets `min_coverage`. -/
def _concat_range (sigAt : Fast5 → Nat → Nat → List Int) (fasts : List Fast5)
    (start end_ : Nat) (min_coverage resample : Nat)
    (from_position to_position : Option Nat) : List Signal :=
  (List.range' start (end_ - start)).filterMap (fun i =>
    if skipPosition i from_position to_position then none
    else
      let contributors := fasts.filter (fun f => decide (f.start ≤ i) && decide (i < f.end_))
      if min_coverage ≤ contributors.length then
        some ⟨i, contributors.length, (contributors.map (fun f => sigAt f i resample)).flatten⟩
      else none)

/-- The per-record loop of `_concat` (`src/nodclust/concat.py` lines 57-78).
The block `fasts[i:j]` of candidate contributors is the head record plus the
`takeWhile` prefix of records starting before its end (so `j - i` is that
block's length); the cursor `start` of the Python code is the `cursor`
argument.  Nulling out `fasts[i]` after the iteration only releases memory
and is dropped. -/
def concatGo (sigAt : Fast5 → Nat → Nat → List Int) (min_coverage resample : Nat)
    (from_position to_position : Option Nat) : List Fast5 → Nat → List Signal
  | [], _ => []
  | f :: rest, cursor =>
    let ov := f :: rest.takeWhile (fun g => decide (g.start < f.end_))
    let c1 := max cursor f.start
    (if c1 < f.end_ ∧ min_coverage ≤ ov.length then
      _concat_range sigAt ov c1 f.end_ min_coverage resample from_position to_position
    else []) ++
    concatGo sigAt min_coverage resample from_position to_position rest (max c1 f.end_)

/-- `_concat` from `src/nodclust/concat.py` lines 46-78: sort the records by
`(start, end)` and stream the per-record loop with the cursor at 0. -/
def _concat (sigAt : Fast5 → Nat → Nat → List Int) (fasts : List Fast5)
    (min_coverage resample : Nat) (from_position to_position : Option Nat) : List Signal :=
  concatGo sigAt min_coverage resample from_position to_position (sortCat fasts) 0

/-- The two-pointer merge loop of `concat_pairs` (`src/nodclust/concat.py`
lines 33-43): advance the stream with the larger head position, emit a pair
on equal positions, stop when either stream is exhausted.  The `while` loop
is embedded with a fuel argument so that it stays structurally recursive;
each iteration consumes at least one element of one stream, so any fuel of
at least the two lengths combined replays the loop exactly. -/
def mergeLoop : Nat → List Signal → List Signal → List (Signal × Signal)
  | _, [], _ => []
  | _, _ :: _, [] => []
  | 0, _ :: _, _ :: _ => []
  | fuel + 1, x :: xs, y :: ys =>
    if y.position < x.position then mergeLoop fuel (x :: xs) ys
    else if x.position < y.position then mergeLoop fuel xs (y :: ys)
    else (x, y) :: mergeLoop fuel xs ys

/-- The merge loop started with enough fuel for its whole run. -/
def mergePairs (X Y : List Signal) : List (Signal × Signal) :=
  mergeLoop (X.length + Y.length) X Y

/-- Strict position order on aggregated samples: the order in which a
`_concat` stream and the merged pair stream emit. -/
def posLt (a b : Signal) : Prop := a.position < b.position

instance instDecPosLt : DecidableRel posLt := fun a b => by
  unfold posLt; infer_instance

/-- `concat_pairs` from `src/nodclust/concat.py` lines 22-43. -/
def concat_pairs (sigAt : Fast5 → Nat → Nat → List Int) (xs ys : List Fast5)
    (min_coverage resample : Nat) (from_position to_position : Option Nat) :
    List (Signal × Signal) :=
  mergePairs (_concat sigAt xs min_coverage resample from_position to_position)
    (_concat sigAt ys min_coverage resample from_position to_position)

/-- One iteration of the accumulation loop of `_distsum_at`
(`src/nodclust/distsum.py` lines 48-50, identical in
`src/signals/distsum.py`): the contribution `window[j][1]`, present when `j`
is a valid window index and `abs(c - window[j][0]) <= span`, where `c` is
the centre position `window[i][0]` and `span = window.maxlen // 2`. -/
def sumStep (window : List (Int × Int)) (span : Nat) (c : Int) (j : Int) : Option Int :=
  if 0 ≤ j ∧ j < (window.length : Int) then
    if (c - (window.getD j.toNat (0, 0)).1).natAbs ≤ span then
      some (window.getD j.toNat (0, 0)).2
    else none
  else none

/-- The summed selected values of the `_distsum_at` loop, with the window
index `j` running over `range(i - span, i + span + 1)`. -/
def windowSum (W : Nat) (window : List (Int × Int)) (i : Nat) (c : Int) : Int :=
  ((List.range (2 * (W / 2) + 1)).filterMap (fun (k : Nat) =>
    sumStep window (W / 2) c ((i : Int) - ((W / 2 : Nat) : Int) + (k : Int)))).sum

/-- The guarded emission of `_distsum_at`: the centre's position paired with
its windowed sum, or the assertion failure. -/
def _distsum_at (W : Nat) (window : List (Int × Int)) (i : Nat) :
    Except String (Int × Int) :=
  if h : i < window.length then
    Except.ok ((window.get ⟨i, h⟩).1, windowSum W window i (window.get ⟨i, h⟩).1)
  else Except.error "AssertionError"

/-- Replay of a Python generator's emissions: collect the values of the
successive yields, stopping with the error of the first failing one. -/
def collectE : List (Except String (Int × Int)) → List (Int × Int) × Option String
  | [] => ([], none)
  | Except.ok x :: rest => ((collectE rest).1.cons x, (collectE rest).2)
  | Except.error s :: _ => ([], some s)

/-- The main loop and suffix of `distsum`: while upstream tuples remain, emit
the window's centre then slide the window (`popleft` plus `append`); once
exhausted, emit indices `W // 2` to `W - 1` of the final window. -/
def distsumLoop (W : Nat) (window : List (Int × Int)) :
    List (Int × Int) → List (Except String (Int × Int))
  | [] => (List.range' (W / 2) (W - W / 2)).map (fun i => _distsum_at W window i)
  | s :: rest => _distsum_at W window (W / 2) :: distsumLoop W (window.drop 1 ++ [s]) rest

/-- `distsum` from `src/nodclust/distsum.py` lines 9-39 (with
`config.WINDOW_SIZE` passed as `W`): preload up to `W` tuples, return nothing
if the window stayed empty, emit the prefix indices `0` to `W // 2 - 1`, then
run the sliding loop and the suffix.  The result is the emitted list together
with the error of the first failing emission, if any. -/
def distsum (W : Nat) (stats : List (Int × Int)) : List (Int × Int) × Option String :=
  let window := stats.take W
  if window.isEmpty then ([], none)
  else
    collectE (((List.range (W / 2)).map (fun i => _distsum_at W window i)) ++
      distsumLoop W window (stats.drop W))

/-- `distsum` from `src/signals/distsum.py` lines 7-34: the same preload,
prefix, loop and suffix, but with `assert window_size > 1` and
`assert window_size % 2 == 1` up front and without the empty-window guard
that the nodclust revision added. -/
def signals_distsum (W : Nat) (stats : List (Int × Int)) :
    List (Int × Int) × Option String :=
  if W ≤ 1 ∨ W % 2 ≠ 1 then ([], some "AssertionError")
  else
    let window := stats.take W
    collectE (((List.range (W / 2)).map (fun i => _distsum_at W window i)) ++
      distsumLoop W window (stats.drop W))

/-- A record together with its raw signal payload, for the resampling model:
`start` is `Alignment.mapped_start`, `sig` the normalised signal array and
`lengths` the per-position event lengths (`Events["length"]`).  The record's
`end` is derived from them exactly as in `Fast5._parse_file`. -/
structure SigRec where
  start : Nat
  sig : List Int
  lengths : List Nat
deriving DecidableEq

/-- Derived `end = mapped_start + Events.shape[0]` of `Fast5._parse_file`. -/
def SigRec.end_ (f : SigRec) : Nat := f.start + f.lengths.length

/-- The `Fast5.positions` cached property: prefix sums `[0, l0, l0+l1, ...]`
of the per-position lengths. -/
def SigRec.positions (f : SigRec) : List Nat :=
  f.lengths.scanl (fun a b => a + b) 0

/-- The per-position fragment sliced inside `Fast5.signal_at`:
`signal[self.positions[i] : self.positions[i] + length[i]]` after the
`i -= self.start` shift. -/
def fragment_at (f : SigRec) (i : Nat) : List Int :=
  (f.sig.drop ((SigRec.positions f).getD (i - f.start) 0)).take
    (f.lengths.getD (i - f.start) 0)

/-- State of the embedded process-global `np.random` generator: the seed it
was last seeded with and a draw counter. -/
abbrev RngState := Nat × Nat

/-- Modelled from the spec: `np.random.seed(seed)` in `Config._postprocess`
resets the process-global generator to a state fully determined by the
configured seed. -/
def npSeed (seed : Nat) : RngState := (seed, 0)

/-- Modelled from the spec: `np.random.choice(frag, size=k, replace=True)`
draws `k` values with replacement from `frag`.  Each draw picks the index
`rand seed counter % frag.length`, where `rand` abstracts the seeded
pseudorandom stream, and advances the counter; uniformity of the draws is a
probabilistic property outside this embedding. -/
def npChoice (rand : Nat → Nat → Nat) (frag : List Int) (k : Nat) (st : RngState) :
    List Int × RngState :=
  ((List.range k).map (fun t => frag.getD (rand st.1 (st.2 + t) % frag.length) 0),
   (st.1, st.2 + k))

/-- `Fast5.signal_at` from `src/nodclust/fast5.py` lines 132-143, with the
global RNG state made explicit: slice the per-position fragment and, when
`resample > 0`, replace it by `resample` draws with replacement. -/
def signal_at (rand : Nat → Nat → Nat) (f : SigRec) (i resample : Nat)
    (st : RngState) : List Int × RngState :=
  if 0 < resample then npChoice rand (fragment_at f i) resample st
  else (fragment_at f i, st)

/-- The `(start, end)` order of `_concat`'s sort, on payload records. -/
def catLeR (f g : SigRec) : Prop :=
  f.start < g.start ∨ (f.start = g.start ∧ f.end_ ≤ g.end_)

instance instDecCatLeR : DecidableRel catLeR := fun f g => by
  unfold catLeR; infer_instance

/-- `_concat_range` on payload records with the RNG state threaded through
every `signal_at` call in evaluation order (per position, then per
contributing record); draws are consumed even when the sample is then
discarded by the coverage gate, as in the Python code. -/
def concatRangeR (rand : Nat → Nat → Nat) (fasts : List SigRec)
    (start end_ min_coverage resample : Nat) (from_position to_position : Option Nat)
    (st : RngState) : List Signal × RngState :=
  (List.range' start (end_ - start)).foldl (fun acc i =>
    if skipPosition i from_position to_position then acc
    else
      let contributors := fasts.filter (fun f => decide (f.start ≤ i) && decide (i < f.end_))
      let step := contributors.foldl (fun (p : List Int × RngState) f =>
        let d := signal_at rand f i resample p.2
        (p.1 ++ d.1, d.2)) ([], acc.2)
      if min_coverage ≤ contributors.length then
        (acc.1 ++ [⟨i, contributors.length, step.1⟩], step.2)
      else (acc.1, step.2)) ([], st)

/-- The per-record loop of `_concat` on payload records, RNG state threaded. -/
def concatGoR (rand : Nat → Nat → Nat) (min_coverage resample : Nat)
    (from_position to_position : Option Nat) :
    List SigRec → Nat → RngState → List Signal × RngState
  | [], _, st => ([], st)
  | f :: rest, cursor, st =>
    let ov := f :: rest.takeWhile (fun g => decide (g.start < f.end_))
    let c1 := max cursor f.start
    let r1 := if c1 < f.end_ ∧ min_coverage ≤ ov.length then
        concatRangeR rand ov c1 f.end_ min_coverage resample from_position to_position st
      else ([], st)
    let r2 := concatGoR rand min_coverage resample from_position to_position rest
      (max c1 f.end_) r1.2
    (r1.1 ++ r2.1, r2.2)

/-- `concat_pairs` over payload records with the RNG state explicit.  The
embedding fixes one deterministic evaluation order (dataset `xs` first, then
`ys`); the Python generators interleave the two `_concat` streams in a
different but likewise input-determined order, which is immaterial for
run-to-run determinism. -/
def concat_pairsR (rand : Nat → Nat → Nat) (xs ys : List SigRec)
    (min_coverage resample : Nat) (from_position to_position : Option Nat)
    (st : RngState) : List (Signal × Signal) × RngState :=
  let rx := concatGoR rand min_coverage resample from_position to_position
    (List.insertionSort catLeR xs) 0 st
  let ry := concatGoR rand min_coverage resample from_position to_position
    (List.insertionSort catLeR ys) 0 rx.2
  (mergePairs rx.1 ry.1, ry.2)

/-- The bounds filter applied per emitted line in `compare_datasets`
(`position_within_bounds` of `src/nodclust/helpers.py` with no pattern
configured and `with_window=False`): a 1-based position must be at least
`from_position` and at most `to_position` when those are set. -/
def position_within_bounds (pos : Nat) (from_position to_position : Option Nat) : Bool :=
  (match from_position with
   | some l => decide (l ≤ pos + 1)
   | none => true) &&
  (match to_position with
   | some r => decide (pos + 1 ≤ r)
   | none => true)

/-- The output stage of `compare_datasets` (`src/nodclust/run.py` lines
38-47) with `no_distance_sum` set: map each pair to
`(position, kuiper(sorted x.data, sorted y.data))`, then keep the lines whose
position passes the bounds filter.  `kuiper` abstracts the external
`astropy.stats._stats.ks_2samp` statistic applied after `_kuiper`'s sorts. -/
def pipeline_no_distsum (sigAt : Fast5 → Nat → Nat → List Int)
    (kuiper : List Int → List Int → Int) (xs ys : List Fast5)
    (min_coverage resample : Nat) (from_position to_position : Option Nat) :
    List (Nat × Int) :=
  ((concat_pairs sigAt xs ys min_coverage resample from_position to_position).map
    (fun t => (t.1.position,
      kuiper (List.insertionSort (fun a b : Int => a ≤ b) t.1.data)
        (List.insertionSort (fun a b : Int => a ≤ b) t.2.data)))).filter
    (fun t => position_within_bounds t.1 from_position to_position)

/-- Query record of the C1 counterexample. -/
def c1q : Fast5 := ⟨50, 60⟩

/-- Target list of the C1 counterexample: sorted by `(start, -end)`, with the
long record `[0, 100)` nested over `[40, 45)`. -/
def c1L : List Fast5 := [⟨0, 100⟩, ⟨40, 45⟩]

/-- Signal-fragment stub used for concrete pipeline evaluations: every record
contributes the one-element fragment `[1]` at every position. -/
def sigAt0 : Fast5 → Nat → Nat → List Int := fun _ _ _ => [1]

/-- Distance-statistic stub used for concrete pipeline evaluations. -/
def kuiper0 : List Int → List Int → Int := fun a b => (a.length : Int) - (b.length : Int)

/-- The C5 example stream: positions `[10, 11, 12, 13, 20]` with statistic
values `[1, 2, 3, 4, 5]`. -/
def c5stats : List (Int × Int) := [(10, 1), (11, 2), (12, 3), (13, 4), (20, 5)]

theorem kLt_irrefl (p : Nat × Int) : ¬ kLt p p := by unfold kLt; omega

theorem kLe_refl (p : Nat × Int) : kLe p p := by unfold kLe; omega

theorem kLe_of_not_kLt {p q : Nat × Int} (h : ¬ kLt p q) : kLe q p := by
  unfold kLt at h; unfold kLe; omega

theorem kLe_kLt_trans {p q r : Nat × Int} (h1 : kLe p q) (h2 : kLt q r) : kLt p r := by
  unfold kLe at h1; unfold kLt at h2 ⊢; omega

theorem kLt_kLe_trans {p q r : Nat × Int} (h1 : kLt p q) (h2 : kLe q r) : kLt p r := by
  unfold kLt at h1 ⊢; unfold kLe at h2; omega

theorem kLe_trans {p q r : Nat × Int} (h1 : kLe p q) (h2 : kLe q r) : kLe p r := by
  unfold kLe at h1 h2 ⊢; omega

theorem kLt_asymm {p q : Nat × Int} (h1 : kLt p q) (h2 : kLt q p) : False := by
  unfold kLt at h1 h2; omega

theorem kLe_antisymm {p q : Nat × Int} (h1 : kLe p q) (h2 : kLe q p) : p = q := by
  obtain ⟨a, b⟩ := p
  obtain ⟨c, d⟩ := q
  unfold kLe at h1 h2
  simp only [Prod.mk.injEq]
  constructor <;> omega

theorem kLt_key_start {f g : Fast5} (h : kLt (key f) (key g)) : f.start ≤ g.start := by
  unfold kLt key at h; simp only at h; omega

theorem kLe_key_start {f g : Fast5} (h : kLe (key f) (key g)) : f.start ≤ g.start := by
  unfold kLe key at h; simp only at h; omega

theorem key_inj {f g : Fast5} (h : key f = key g) : f = g := by
  unfold key at h
  obtain ⟨a, b⟩ := f
  obtain ⟨c, d⟩ := g
  simp only [Prod.mk.injEq, neg_inj, Nat.cast_inj] at h
  simp [h.1, h.2]

theorem ovLe_total : ∀ f g : Fast5, ovLe f g ∨ ovLe g f := by
  intro f g; unfold ovLe kLe; omega

theorem ovLe_trans_rel : ∀ f g h : Fast5, ovLe f g → ovLe g h → ovLe f h := by
  intro f g h h1 h2; exact kLe_trans h1 h2

instance instIsTotalOvLe : IsTotal Fast5 ovLe := ⟨ovLe_total⟩

instance instIsTransOvLe : IsTrans Fast5 ovLe := ⟨ovLe_trans_rel⟩

instance instIsTotalCatLe : IsTotal Fast5 catLe := by
  constructor; intro f g; unfold catLe; omega

instance instIsTransCatLe : IsTrans Fast5 catLe := by
  constructor; intro f g h h1 h2; unfold catLe at h1 h2 ⊢; omega

theorem bisectLoop_le (a : List (Nat × Int)) (x : Nat × Int) :
    ∀ fuel lo hi, lo ≤ hi →
      lo ≤ bisectLoop a x fuel lo hi ∧ bisectLoop a x fuel lo hi ≤ hi := by
  intro fuel
  induction fuel with
  | zero => intro lo hi h; simp only [bisectLoop]; exact ⟨Nat.le_refl lo, h⟩
  | succ n ih =>
    intro lo hi h
    simp only [bisectLoop]
    by_cases hlt : lo < hi
    · simp only [if_pos hlt]
      by_cases hk : kLt (a.getD ((lo + hi) / 2) (0, 0)) x
      · simp only [if_pos hk]
        have := ih ((lo + hi) / 2 + 1) hi (by omega)
        omega
      · simp only [if_neg hk]
        have := ih lo ((lo + hi) / 2) (by omega)
        omega
    · simp only [if_neg hlt]
      exact ⟨Nat.le_refl lo, h⟩

/-- Core invariant of the binary search on a sorted key list: every index
below the returned insertion point carries a key below `x`, and none at or
above it does. -/
theorem bisectLoop_split (a : List (Nat × Int)) (x : Nat × Int)
    (hs : a.Pairwise kLe) :
    ∀ fuel lo hi, hi - lo ≤ fuel → hi ≤ a.length →
      (∀ i (h : i < a.length), i < lo → kLt (a.get ⟨i, h⟩) x) →
      (∀ i (h : i < a.length), hi ≤ i → ¬ kLt (a.get ⟨i, h⟩) x) →
      ∀ i (h : i < a.length),
        (i < bisectLoop a x fuel lo hi → kLt (a.get ⟨i, h⟩) x) ∧
        (bisectLoop a x fuel lo hi ≤ i → ¬ kLt (a.get ⟨i, h⟩) x) := by
  have hpg := List.pairwise_iff_get.mp hs
  intro fuel
  induction fuel with
  | zero =>
    intro lo hi hfuel _ hl hh i h
    simp only [bisectLoop]
    exact ⟨fun hi2 => hl i h hi2, fun hi2 => hh i h (by omega)⟩
  | succ n ih =>
    intro lo hi hfuel hhi hl hh i h
    simp only [bisectLoop]
    by_cases hlt : lo < hi
    · simp only [if_pos hlt]
      have hmid : (lo + hi) / 2 < a.length := by omega
      have hgetd : a.getD ((lo + hi) / 2) (0, 0) = a.get ⟨(lo + hi) / 2, hmid⟩ := by
        simpa using List.getD_eq_getElem a (0, 0) hmid
      by_cases hk : kLt (a.getD ((lo + hi) / 2) (0, 0)) x
      · simp only [if_pos hk]
        refine ih ((lo + hi) / 2 + 1) hi (by omega) hhi ?_ hh i h
        intro i2 h2 hi2
        rcases Nat.lt_or_ge i2 ((lo + hi) / 2) with hc | hc
        · exact kLe_kLt_trans (hpg ⟨i2, h2⟩ ⟨(lo + hi) / 2, hmid⟩ hc) (hgetd ▸ hk)
        · have : i2 = (lo + hi) / 2 := by omega
          subst this
          exact hgetd ▸ hk
      · simp only [if_neg hk]
        refine ih lo ((lo + hi) / 2) (by omega) (by omega) hl ?_ i h
        intro i2 h2 hi2
        rcases Nat.lt_or_ge ((lo + hi) / 2) i2 with hc | hc
        · intro hk2
          exact hk (hgetd ▸ kLe_kLt_trans (hpg ⟨(lo + hi) / 2, hmid⟩ ⟨i2, h2⟩ hc) hk2)
        · have : i2 = (lo + hi) / 2 := by omega
          subst this
          exact fun hk2 => hk (hgetd ▸ hk2)
    · simp only [if_neg hlt]
      exact ⟨fun hi2 => hl i h hi2, fun hi2 => hh i h (by omega)⟩

theorem bisect_left_le_length (a : List (Nat × Int)) (x : Nat × Int) :
    bisect_left a x ≤ a.length :=
  (bisectLoop_le a x a.length 0 a.length (by omega)).2

theorem bisect_left_split (a : List (Nat × Int)) (x : Nat × Int)
    (hs : a.Pairwise kLe) (i : Nat) (h : i < a.length) :
    (i < bisect_left a x → kLt (a.get ⟨i, h⟩) x) ∧
    (bisect_left a x ≤ i → ¬ kLt (a.get ⟨i, h⟩) x) :=
  bisectLoop_split a x hs a.length 0 a.length (by omega) (le_refl _)
    (by omega) (fun i2 h2 hi2 => by omega) i h

theorem bisect_left_mono (a : List (Nat × Int)) (hs : a.Pairwise kLe)
    {x y : Nat × Int} (hxy : kLe x y) : bisect_left a x ≤ bisect_left a y := by
  by_contra hcon
  have hylen : bisect_left a y < a.length := by
    have := bisect_left_le_length a x
    omega
  have h1 := (bisect_left_split a x hs (bisect_left a y) hylen).1 (by omega)
  have h2 := (bisect_left_split a y hs (bisect_left a y) hylen).2 (le_refl _)
  exact h2 (kLt_kLe_trans h1 hxy)

/-- Record lists sorted by the `(start, -end)` key have non-decreasing
starts. -/
theorem startLe_of_ovSorted {L : List Fast5} (h : L.Pairwise ovLe) :
    L.Pairwise (fun f g => f.start ≤ g.start) :=
  h.imp (fun hfg => kLe_key_start hfg)

theorem mem_drop_of_le_index {α : Type} (L : List α) (n i : Nat) (h : i < L.length)
    (hni : n ≤ i) : L.get ⟨i, h⟩ ∈ L.drop n := by
  have hlen : i - n < (L.drop n).length := by
    simp only [List.length_drop]; omega
  have : (L.drop n).get ⟨i - n, hlen⟩ = L.get ⟨i, h⟩ := by
    simp only [List.get_eq_getElem, List.getElem_drop]
    congr 1
    omega
  rw [← this]
  exact List.get_mem _ _ _

theorem overlapGo_some (self : Fast5) :
    ∀ l f, overlapGo self l = some f → f ∈ l ∧ overlaps self f := by
  intro l
  induction l with
  | nil => intro f h; simp [overlapGo] at h
  | cons g rest ih =>
    intro f h
    simp only [overlapGo] at h
    by_cases h1 : self.end_ ≤ g.start
    · simp [h1] at h
    · simp only [if_neg h1] at h
      by_cases h2 : self.start < g.end_ ∧ g.start < self.end_
      · simp only [if_pos h2] at h
        cases h
        exact ⟨List.mem_cons_self _ _, h2⟩
      · simp only [if_neg h2] at h
        obtain ⟨hm, ho⟩ := ih f h
        exact ⟨List.mem_cons_of_mem _ hm, ho⟩

theorem overlapGo_isSome (self : Fast5) :
    ∀ l, l.Pairwise (fun f g => f.start ≤ g.start) →
      ∀ b ∈ l, overlaps self b → (overlapGo self l).isSome := by
  intro l
  induction l with
  | nil => intro _ b hb; simp at hb
  | cons g rest ih =>
    intro hsort b hb hov
    simp only [overlapGo]
    by_cases h1 : self.end_ ≤ g.start
    · exfalso
      rcases List.mem_cons.mp hb with hbg | hbr
      · subst hbg
        exact absurd hov.2 (by omega)
      · have : g.start ≤ b.start := (List.rel_of_pairwise_cons hsort) hbr
        exact absurd hov.2 (by omega)
    · simp only [if_neg h1]
      by_cases h2 : self.start < g.end_ ∧ g.start < self.end_
      · simp [h2]
      · simp only [if_neg h2]
        rcases List.mem_cons.mp hb with hbg | hbr
        · subst hbg; exact absurd hov h2
        · exact ih (List.Pairwise.of_cons hsort) b hbr hov

theorem overlap_some_sound {q : Fast5} {L : List Fast5} {f : Fast5}
    (h : Fast5.overlap q L = some f) :
    f ∈ L.drop (bisect_left (L.map key) (key q) - 1) ∧ overlaps q f :=
  overlapGo_some q _ f h

theorem overlap_isSome_of_reach {q : Fast5} {L : List Fast5}
    (hsort : L.Pairwise ovLe) {b : Fast5}
    (hb : b ∈ L.drop (bisect_left (L.map key) (key q) - 1)) (hov : overlaps q b) :
    (Fast5.overlap q L).isSome :=
  overlapGo_isSome q _
    (List.Pairwise.sublist (List.drop_sublist _ _) (startLe_of_ovSorted hsort)) b hb hov

/-- Keys of a record list, bundled with the sortedness transfer. -/
theorem keys_pairwise {L : List Fast5} (h : L.Pairwise ovLe) :
    (L.map key).Pairwise kLe :=
  (List.pairwise_map).mpr h

theorem keys_get {L : List Fast5} (i : Nat) (h : i < L.length)
    (h2 : i < (L.map key).length) :
    (L.map key).get ⟨i, h2⟩ = key (L.get ⟨i, h⟩) := by
  simp

/-- C4: the Window Smoother does not preserve count and order on streams
shorter than the window: on the single-tuple stream `[(10, 1)]` with window
size 5, `distsum` emits the one (correct) tuple and then raises
`AssertionError` from `_distsum_at` (`assert 0 <= i < len(window)` with
`i = 1`, `len(window) = 1`) instead of terminating normally. -/
theorem C4_short_stream_assertion_failure :
    distsum 5 [(10, 1)] = ([(10, 1)], some "AssertionError") := by decide

/-- C5: with window size 5 and the statistic stream at positions
`[10, 11, 12, 13, 20]` with values `[1, 2, 3, 4, 5]`, the emitted windowed
sum at position 20 is its own value 5 (the gap to its neighbours exceeds the
half-width 2) and the emitted windowed sum at position 12 is `1+2+3+4 = 10`
(position 20 excluded, distance 8 > 2); the run raises no error. -/
theorem C5_window_boundary_example :
    (distsum 5 c5stats).1.lookup 20 = some 5 ∧
    (distsum 5 c5stats).1.lookup 12 = some 10 ∧
    (distsum 5 c5stats).2 = none := by decide

/-- C8: on an empty upstream stream with window size 5 the nodclust
`distsum` emits nothing and finishes without error, but the
`src/signals/distsum.py` revision, which lacks the empty-window guard,
raises `AssertionError` from its first prefix emission. -/
theorem C8_empty_stream_behavior :
    distsum 5 [] = ([], none) ∧
    signals_distsum 5 [] = ([], some "AssertionError") := by decide

/-- C6: with one dataset holding the single record `[100, 110)` and the other
the single record `[105, 115)`, minimum coverage 1, resampling disabled and
no position bounds, the Pair Merger yields exactly the positions
`105, 106, 107, 108, 109` in order, and the windowing-disabled pipeline
emits exactly 5 output lines. -/
theorem C6_end_to_end_scenario :
    ((concat_pairs sigAt0 [⟨100, 110⟩] [⟨105, 115⟩] 1 0 none none).map
      (fun t => t.1.position)) = [105, 106, 107, 108, 109] ∧
    (pipeline_no_distsum sigAt0 kuiper0 [⟨100, 110⟩] [⟨105, 115⟩] 1 0 none none).length
      = 5 := by decide

/-- C1 (counterexample): the target list `[(0,100), (40,45)]` is sorted by
`(start, -end)` and its record `[0, 100)` overlaps the query `[50, 60)`, yet
`Fast5.overlap` returns nothing: the binary search points past the nested
record `[40, 45)` and the scan never looks at `[0, 100)`. -/
theorem C1_overlap_counterexample :
    List.Pairwise ovLe c1L ∧
    (∃ b ∈ c1L, c1q.start < b.end_ ∧ b.start < c1q.end_) ∧
    (Fast5.overlap c1q c1L).isNone = true := by decide

/-- C1 (amended): the claimed equivalence holds once the sorted target list
additionally has non-decreasing ends (no record properly nested inside an
earlier one) and the query is a genuine record (`start < end`): then
`Fast5.overlap` returns some record iff some element of the list overlaps
the query, and in particular returns nothing when every element is disjoint
from it.  The nesting hypothesis is exactly what the counterexample
violates. -/
theorem C1_overlap_amended (q : Fast5) (L : List Fast5)
    (hsort : L.Pairwise ovLe) (hmono : L.Pairwise (fun f g => f.end_ ≤ g.end_))
    (hq : q.start < q.end_) :
    (Fast5.overlap q L).isSome ↔ ∃ b ∈ L, q.start < b.end_ ∧ b.start < q.end_ := by
  constructor
  · intro h
    obtain ⟨f, hf⟩ := Option.isSome_iff_exists.mp h
    obtain ⟨hmem, hov⟩ := overlap_some_sound hf
    exact ⟨f, List.drop_subset _ _ hmem, hov.1, hov.2⟩
  · rintro ⟨b, hbL, h1, h2⟩
    have hov : overlaps q b := ⟨h1, h2⟩
    obtain ⟨⟨ib, hib⟩, hbg⟩ := List.mem_iff_get.mp hbL
    rcases Nat.lt_or_ge ib (bisect_left (L.map key) (key q) - 1) with hc | hc
    · have hjlen : bisect_left (L.map key) (key q) ≤ L.length := by
        have := bisect_left_le_length (L.map key) (key q)
        simpa using this
      have hs : bisect_left (L.map key) (key q) - 1 < L.length := by omega
      have hs2 : bisect_left (L.map key) (key q) - 1 < (L.map key).length := by
        simpa using hs
      have hklt := (bisect_left_split (L.map key) (key q) (keys_pairwise hsort)
        (bisect_left (L.map key) (key q) - 1) hs2).1 (by omega)
      rw [keys_get _ hs hs2] at hklt
      set c := L.get ⟨bisect_left (L.map key) (key q) - 1, hs⟩ with hcdef
      have hcstart : c.start ≤ q.start := kLt_key_start hklt
      have hbend : b.end_ ≤ c.end_ := by
        have := List.pairwise_iff_get.mp hmono ⟨ib, hib⟩
          ⟨bisect_left (L.map key) (key q) - 1, hs⟩ hc
        rw [hbg] at this
        exact this
      have hovc : overlaps q c := ⟨by omega, by omega⟩
      exact overlap_isSome_of_reach hsort
        (mem_drop_of_le_index L _ _ hs (le_refl _)) hovc
    · rw [← hbg] at hov
      exact overlap_isSome_of_reach hsort (mem_drop_of_le_index L _ _ hib hc) hov

/-- Witness for the amended C1 interval-overlap theorem at a concrete sorted,
unnested list and query. -/
theorem C1_overlap_amended_witness :
    List.Pairwise ovLe [(⟨0, 5⟩ : Fast5), ⟨3, 7⟩] ∧
    List.Pairwise (fun f g : Fast5 => f.end_ ≤ g.end_) [(⟨0, 5⟩ : Fast5), ⟨3, 7⟩] ∧
    (4 : Nat) < 6 ∧
    ((Fast5.overlap ⟨4, 6⟩ [⟨0, 5⟩, ⟨3, 7⟩]).isSome ↔
      ∃ b ∈ [(⟨0, 5⟩ : Fast5), ⟨3, 7⟩], 4 < b.end_ ∧ b.start < 6) :=
  ⟨by decide, by decide, by decide,
    C1_overlap_amended ⟨4, 6⟩ [⟨0, 5⟩, ⟨3, 7⟩] (by decide) (by decide) (by decide)⟩

theorem pos_lt_of_mem_tail {x : Signal} {xs : List Signal}
    (h : (x :: xs).Pairwise posLt) {p : Nat} (hp : p ∈ xs.map Signal.position) :
    x.position < p := by
  obtain ⟨s, hs, rfl⟩ := List.mem_map.mp hp
  exact (List.rel_of_pairwise_cons h) hs

/-- Full characterisation of the fuelled merge loop on strictly increasing
streams: the output is strictly increasing and its positions are exactly the
common positions of the inputs. -/
theorem mergeLoop_spec :
    ∀ fuel X Y, X.length + Y.length ≤ fuel →
      X.Pairwise posLt → Y.Pairwise posLt →
      (mergeLoop fuel X Y).Pairwise (fun p q => p.1.position < q.1.position) ∧
      (∀ p : Nat, p ∈ (mergeLoop fuel X Y).map (fun t => t.1.position) ↔
        (p ∈ X.map Signal.position ∧ p ∈ Y.map Signal.position)) := by
  intro fuel
  induction fuel with
  | zero =>
    intro X Y hf _ _
    have hX : X = [] := List.length_eq_zero.mp (by omega)
    subst hX
    simp [mergeLoop]
  | succ n ih =>
    intro X Y hf hX hY
    match X, Y with
    | [], _ => simp [mergeLoop]
    | x :: xs, [] => simp [mergeLoop]
    | x :: xs, y :: ys =>
      simp only [mergeLoop]
      by_cases h1 : y.position < x.position
      · simp only [if_pos h1]
        have hf2 : (x :: xs).length + ys.length ≤ n := by
          simp only [List.length_cons] at hf ⊢; omega
        obtain ⟨hp, hm⟩ := ih (x :: xs) ys hf2 hX (List.Pairwise.of_cons hY)
        refine ⟨hp, fun p => ?_⟩
        rw [hm p]
        constructor
        · rintro ⟨ha, hb⟩
          exact ⟨ha, List.mem_map.mp hb |>.elim
            (fun s hs => List.mem_map.mpr ⟨s, List.mem_cons_of_mem _ hs.1, hs.2⟩)⟩
        · rintro ⟨ha, hb⟩
          refine ⟨ha, ?_⟩
          rcases List.mem_map.mp hb with ⟨s, hs, rfl⟩
          rcases List.mem_cons.mp hs with rfl | hs2
          · exfalso
            rcases List.mem_map.mp ha with ⟨t, ht, hpt⟩
            rcases List.mem_cons.mp ht with rfl | ht2
            · omega
            · have := (List.rel_of_pairwise_cons hX) ht2
              unfold posLt at this
              omega
          · exact List.mem_map.mpr ⟨s, hs2, rfl⟩
      · simp only [if_neg h1]
        by_cases h2 : x.position < y.position
        · simp only [if_pos h2]
          have hf2 : xs.length + (y :: ys).length ≤ n := by
            simp only [List.length_cons] at hf ⊢; omega
          obtain ⟨hp, hm⟩ := ih xs (y :: ys) hf2 (List.Pairwise.of_cons hX) hY
          refine ⟨hp, fun p => ?_⟩
          rw [hm p]
          constructor
          · rintro ⟨ha, hb⟩
            exact ⟨List.mem_map.mp ha |>.elim
              (fun s hs => List.mem_map.mpr ⟨s, List.mem_cons_of_mem _ hs.1, hs.2⟩), hb⟩
          · rintro ⟨ha, hb⟩
            refine ⟨?_, hb⟩
            rcases List.mem_map.mp ha with ⟨s, hs, rfl⟩
            rcases List.mem_cons.mp hs with rfl | hs2
            · exfalso
              rcases List.mem_map.mp hb with ⟨t, ht, hpt⟩
              rcases List.mem_cons.mp ht with rfl | ht2
              · omega
              · have := (List.rel_of_pairwise_cons hY) ht2
                unfold posLt at this
                omega
            · exact List.mem_map.mpr ⟨s, hs2, rfl⟩
        · simp only [if_neg h2]
          have heq : x.position = y.position := by omega
          have hf2 : xs.length + ys.length ≤ n := by
            simp only [List.length_cons] at hf ⊢; omega
          obtain ⟨hp, hm⟩ := ih xs ys hf2 (List.Pairwise.of_cons hX) (List.Pairwise.of_cons hY)
          constructor
          · refine List.Pairwise.cons ?_ hp
            intro q hq
            have hq2 : q.1.position ∈ (mergeLoop n xs ys).map (fun t => t.1.position) :=
              List.mem_map.mpr ⟨q, hq, rfl⟩
            have := ((hm q.1.position).mp hq2).1
            exact pos_lt_of_mem_tail hX this
          · intro p
            simp only [List.map_cons, List.mem_cons]
            by_cases hpx : p = x.position
            · subst hpx
              exact iff_of_true (Or.inl rfl) ⟨Or.inl rfl, Or.inl heq⟩
            · constructor
              · rintro (h | h)
                · exact absurd h hpx
                · obtain ⟨ha, hb⟩ := (hm p).mp h
                  exact ⟨Or.inr ha, Or.inr hb⟩
              · rintro ⟨ha, hb⟩
                rcases ha with ha | ha
                · exact absurd ha hpx
                · rcases hb with hb | hb
                  · exact absurd (heq ▸ hb) hpx
                  · exact Or.inr ((hm p).mpr ⟨ha, hb⟩)

/-- C3: on two aggregated-sample streams that are strictly increasing by
position, the Pair Merger's output is strictly increasing by position and
the set of output positions is exactly the intersection of the two input
position sets. -/
theorem C3_merge_intersection (X Y : List Signal)
    (hX : X.Pairwise posLt) (hY : Y.Pairwise posLt) :
    (mergePairs X Y).Pairwise (fun p q => p.1.position < q.1.position) ∧
    (∀ p : Nat, p ∈ (mergePairs X Y).map (fun t => t.1.position) ↔
      (p ∈ X.map Signal.position ∧ p ∈ Y.map Signal.position)) :=
  mergeLoop_spec (X.length + Y.length) X Y (le_refl _) hX hY

/-- Witness for the Pair Merger theorem at two concrete strictly increasing
streams. -/
theorem C3_merge_intersection_witness :
    List.Pairwise posLt [(⟨1, 1, [1]⟩ : Signal), ⟨3, 1, [2]⟩, ⟨5, 1, [3]⟩] ∧
    List.Pairwise posLt [(⟨3, 2, [4]⟩ : Signal), ⟨4, 2, [5]⟩, ⟨5, 2, [6]⟩] ∧
    ((mergePairs [⟨1, 1, [1]⟩, ⟨3, 1, [2]⟩, ⟨5, 1, [3]⟩]
        [⟨3, 2, [4]⟩, ⟨4, 2, [5]⟩, ⟨5, 2, [6]⟩]).Pairwise
      (fun p q => p.1.position < q.1.position) ∧
      (∀ p : Nat, p ∈ (mergePairs [(⟨1, 1, [1]⟩ : Signal), ⟨3, 1, [2]⟩, ⟨5, 1, [3]⟩]
          [⟨3, 2, [4]⟩, ⟨4, 2, [5]⟩, ⟨5, 2, [6]⟩]).map (fun t => t.1.position) ↔
        (p ∈ [(⟨1, 1, [1]⟩ : Signal), ⟨3, 1, [2]⟩, ⟨5, 1, [3]⟩].map Signal.position ∧
         p ∈ [(⟨3, 2, [4]⟩ : Signal), ⟨4, 2, [5]⟩, ⟨5, 2, [6]⟩].map Signal.position))) :=
  ⟨by decide, by decide,
    C3_merge_intersection [⟨1, 1, [1]⟩, ⟨3, 1, [2]⟩, ⟨5, 1, [3]⟩]
      [⟨3, 2, [4]⟩, ⟨4, 2, [5]⟩, ⟨5, 2, [6]⟩] (by decide) (by decide)⟩

/-- Every sample emitted by `_concat_range` carries a position inside the
processed range, a coverage equal to the number of candidate records whose
interval contains the position, and a coverage meeting the gate. -/
theorem concat_range_spec {sigAt : Fast5 → Nat → Nat → List Int} {fasts : List Fast5}
    {start end_ min_coverage resample : Nat} {fp tp : Option Nat} {s : Signal}
    (hs : s ∈ _concat_range sigAt fasts start end_ min_coverage resample fp tp) :
    start ≤ s.position ∧ s.position < end_ ∧
    s.coverage = fasts.countP
      (fun f => decide (f.start ≤ s.position) && decide (s.position < f.end_)) ∧
    min_coverage ≤ s.coverage := by
  obtain ⟨i, hi, hf⟩ := List.mem_filterMap.mp hs
  have hrange : start ≤ i ∧ i < end_ := by
    have := List.mem_range'_1.mp hi
    omega
  by_cases hskip : skipPosition i fp tp
  · rw [if_pos hskip] at hf
    cases hf
  · rw [if_neg hskip] at hf
    by_cases hcov : min_coverage ≤
        (fasts.filter (fun f => decide (f.start ≤ i) && decide (i < f.end_))).length
    · rw [if_pos hcov, Option.some.injEq] at hf
      subst hf
      refine ⟨hrange.1, hrange.2, ?_, ?_⟩
      · simp [List.countP_eq_length_filter]
      · exact hcov
    · rw [if_neg hcov] at hf
      cases hf

/-- Every sample emitted by the `_concat` loop sits at or beyond the cursor. -/
theorem concatGo_cursor_le {sigAt : Fast5 → Nat → Nat → List Int}
    {min_coverage resample : Nat} {fp tp : Option Nat} :
    ∀ (fasts : List Fast5) (cursor : Nat) (s : Signal),
      s ∈ concatGo sigAt min_coverage resample fp tp fasts cursor →
      cursor ≤ s.position := by
  intro fasts
  induction fasts with
  | nil => intro cursor s hs; simp [concatGo] at hs
  | cons f rest ih =>
    intro cursor s hs
    simp only [concatGo] at hs
    rcases List.mem_append.mp hs with hhead | htail
    · by_cases hc : max cursor f.start < f.end_ ∧
          min_coverage ≤ (f :: rest.takeWhile (fun g => decide (g.start < f.end_))).length
      · rw [if_pos hc] at hhead
        have := (concat_range_spec hhead).1
        omega
      · rw [if_neg hc] at hhead
        cases hhead
    · have := ih (max (max cursor f.start) f.end_) s htail
      omega

/-- Records past the active window of a start-sorted list begin at or after
the head record's end. -/
theorem dropWhile_start_ge {E : Nat} :
    ∀ (rest : List Fast5), rest.Pairwise (fun a b => a.start ≤ b.start) →
      ∀ d ∈ rest.dropWhile (fun g => decide (g.start < E)), E ≤ d.start := by
  intro rest
  induction rest with
  | nil => intro _ d hd; simp at hd
  | cons g tl ih =>
    intro hsort d hd
    by_cases hg : g.start < E
    · rw [List.dropWhile_cons_of_pos (by simpa using hg)] at hd
      exact ih (List.Pairwise.of_cons hsort) d hd
    · rw [List.dropWhile_cons_of_neg (by simpa using hg)] at hd
      rcases List.mem_cons.mp hd with rfl | hd2
      · omega
      · have := (List.rel_of_pairwise_cons hsort) hd2
        omega

/-- Coverage invariant of the `_concat` loop over a start-sorted record
list: every emitted sample's coverage counts exactly the records of the
remaining list containing its position, and meets the gate. -/
theorem concatGo_coverage {sigAt : Fast5 → Nat → Nat → List Int}
    {min_coverage resample : Nat} {fp tp : Option Nat} :
    ∀ (fasts : List Fast5) (cursor : Nat),
      fasts.Pairwise (fun a b => a.start ≤ b.start) →
      ∀ s ∈ concatGo sigAt min_coverage resample fp tp fasts cursor,
        s.coverage = fasts.countP
          (fun f => decide (f.start ≤ s.position) && decide (s.position < f.end_)) ∧
        min_coverage ≤ s.coverage := by
  intro fasts
  induction fasts with
  | nil => intro cursor _ s hs; simp [concatGo] at hs
  | cons f rest ih =>
    intro cursor hsort s hs
    simp only [concatGo] at hs
    rcases List.mem_append.mp hs with hhead | htail
    · by_cases hc : max cursor f.start < f.end_ ∧
          min_coverage ≤ (f :: rest.takeWhile (fun g => decide (g.start < f.end_))).length
      · rw [if_pos hc] at hhead
        obtain ⟨_, hlt, hcov, hmc⟩ := concat_range_spec hhead
        refine ⟨?_, hmc⟩
        rw [hcov]
        have hsplit := List.takeWhile_append_dropWhile
          (fun g => decide (g.start < f.end_)) rest
        have hzero : (rest.dropWhile (fun g => decide (g.start < f.end_))).countP
            (fun g => decide (g.start ≤ s.position) && decide (s.position < g.end_)) = 0 := by
          rw [List.countP_eq_zero]
          intro d hd
          have := dropWhile_start_ge rest (List.Pairwise.of_cons hsort) d hd
          simp only [Bool.and_eq_true, decide_eq_true_eq, not_and]
          omega
        have hrest : rest.countP
            (fun g => decide (g.start ≤ s.position) && decide (s.position < g.end_)) =
            (rest.takeWhile (fun g => decide (g.start < f.end_))).countP
            (fun g => decide (g.start ≤ s.position) && decide (s.position < g.end_)) := by
          conv_lhs => rw [← hsplit]
          rw [List.countP_append, hzero, Nat.add_zero]
        rw [List.countP_cons, List.countP_cons, hrest]
      · rw [if_neg hc] at hhead
        cases hhead
    · have hrec := ih (max (max cursor f.start) f.end_) (List.Pairwise.of_cons hsort) s htail
      have hpos := concatGo_cursor_le rest (max (max cursor f.start) f.end_) s htail
      refine ⟨?_, hrec.2⟩
      rw [List.countP_cons]
      have hnf : (decide (f.start ≤ s.position) && decide (s.position < f.end_)) = false := by
        simp only [Bool.and_eq_false_iff, decide_eq_false_iff_not]
        omega
      rw [hnf]
      simpa using hrec.1

/-- The `(start, end)` sort yields non-decreasing starts. -/
theorem sortCat_startLe (fasts : List Fast5) :
    (sortCat fasts).Pairwise (fun a b => a.start ≤ b.start) := by
  have := List.sorted_insertionSort catLe fasts
  exact this.imp (fun hfg => by unfold catLe at hfg; omega)

/-- C2: every aggregated sample emitted by the Position Aggregator carries a
coverage equal to the number of input records whose half-open interval
contains its position, and that coverage meets the `min_coverage >= 1`
gate. -/
theorem C2_coverage_invariant (sigAt : Fast5 → Nat → Nat → List Int)
    (fasts : List Fast5) (min_coverage resample : Nat)
    (from_position to_position : Option Nat) (_hmc : 1 ≤ min_coverage) (s : Signal)
    (hs : s ∈ _concat sigAt fasts min_coverage resample from_position to_position) :
    s.coverage = fasts.countP
      (fun f => decide (f.start ≤ s.position) && decide (s.position < f.end_)) ∧
    min_coverage ≤ s.coverage := by
  have h := concatGo_coverage (sortCat fasts) 0 (sortCat_startLe fasts) s hs
  refine ⟨?_, h.2⟩
  rw [h.1]
  exact List.Perm.countP_eq _ (List.perm_insertionSort catLe fasts)

/-- Witness for the coverage invariant at a concrete two-record dataset. -/
theorem C2_coverage_invariant_witness :
    (1 : Nat) ≤ 1 ∧
    (⟨1, 2, [1, 1]⟩ : Signal) ∈ _concat sigAt0 [⟨0, 2⟩, ⟨1, 3⟩] 1 0 none none ∧
    ((⟨1, 2, [1, 1]⟩ : Signal).coverage =
      ([⟨0, 2⟩, ⟨1, 3⟩] : List Fast5).countP
        (fun f => decide (f.start ≤ (⟨1, 2, [1, 1]⟩ : Signal).position) &&
          decide ((⟨1, 2, [1, 1]⟩ : Signal).position < f.end_)) ∧
      1 ≤ (⟨1, 2, [1, 1]⟩ : Signal).coverage) :=
  ⟨by decide, by decide,
    C2_coverage_invariant sigAt0 [⟨0, 2⟩, ⟨1, 3⟩] 1 0 none none (by decide)
      ⟨1, 2, [1, 1]⟩ (by decide)⟩

theorem get_idx_congr {α : Type} (L : List α) {i j : Nat} (hij : i = j)
    (hi : i < L.length) : L.get ⟨i, hi⟩ = L.get ⟨j, hij ▸ hi⟩ := by
  subst hij; rfl

theorem get_list_congr {α : Type} {L M : List α} (h : L = M) (i : Nat)
    (hi : i < L.length) : L.get ⟨i, hi⟩ = M.get ⟨i, h ▸ hi⟩ := by
  subst h; rfl

theorem sumStep_some {window : List (Int × Int)} {span : Nat} {c : Int} {j : Int}
    {v : Int} (h : sumStep window span c j = some v) :
    ∃ hj : j.toNat < window.length, v = (window.get ⟨j.toNat, hj⟩).2 := by
  unfold sumStep at h
  by_cases h1 : 0 ≤ j ∧ j < (window.length : Int)
  · rw [if_pos h1] at h
    have hj : j.toNat < window.length := by omega
    by_cases h2 : (c - (window.getD j.toNat (0, 0)).1).natAbs ≤ span
    · rw [if_pos h2, Option.some.injEq] at h
      refine ⟨hj, ?_⟩
      rw [← h, List.getD_eq_getElem _ _ hj]
      simp [List.get_eq_getElem]
    · rw [if_neg h2] at h; cases h
  · rw [if_neg h1] at h; cases h

theorem sumStep_center {window : List (Int × Int)} {span : Nat} {i : Nat}
    (hi : i < window.length) :
    sumStep window span (window.get ⟨i, hi⟩).1 ((i : Nat) : Int) =
      some (window.get ⟨i, hi⟩).2 := by
  unfold sumStep
  have h1 : 0 ≤ ((i : Nat) : Int) ∧ ((i : Nat) : Int) < (window.length : Int) :=
    ⟨Int.natCast_nonneg i, by exact_mod_cast hi⟩
  rw [if_pos h1]
  have ht : ((i : Nat) : Int).toNat = i := by omega
  rw [ht, List.getD_eq_getElem _ _ hi]
  have h2 : ((window.get ⟨i, hi⟩).1 - (window[i]).1).natAbs ≤ span := by
    simp [List.get_eq_getElem]
  rw [if_pos h2]
  simp [List.get_eq_getElem]

/-- The windowed sum always includes the centre's own raw statistic: with
non-negative inputs it dominates the centre value. -/
theorem windowSum_center_le {W : Nat} {window : List (Int × Int)} {i : Nat}
    (hi : i < window.length) (hnn : ∀ v ∈ window, 0 ≤ v.2) :
    (window.get ⟨i, hi⟩).2 ≤ windowSum W window i (window.get ⟨i, hi⟩).1 := by
  unfold windowSum
  refine List.single_le_sum ?_ _ ?_
  · intro x hx
    obtain ⟨k, _, hpick⟩ := List.mem_filterMap.mp hx
    obtain ⟨hj, hv⟩ := sumStep_some hpick
    rw [hv]
    exact hnn _ (List.get_mem _ _ _)
  · have hmem : W / 2 ∈ List.range (2 * (W / 2) + 1) := List.mem_range.mpr (by omega)
    refine List.mem_filterMap.mpr ⟨W / 2, hmem, ?_⟩
    have harg : (i : Int) - ((W / 2 : Nat) : Int) + ((W / 2 : Nat) : Int) =
        ((i : Nat) : Int) := by
      omega
    rw [harg]
    exact sumStep_center hi

theorem distsum_at_ok {W : Nat} {window : List (Int × Int)} {i : Nat} {r : Int × Int}
    (h : _distsum_at W window i = Except.ok r) :
    ∃ hi : i < window.length,
      r.1 = (window.get ⟨i, hi⟩).1 ∧
      ((∀ v ∈ window, 0 ≤ v.2) → (window.get ⟨i, hi⟩).2 ≤ r.2) := by
  unfold _distsum_at at h
  by_cases hi : i < window.length
  · rw [dif_pos hi, Except.ok.injEq] at h
    refine ⟨hi, ?_, ?_⟩
    · rw [← h]
    · intro hnn
      rw [← h]
      exact windowSum_center_le hi hnn
  · rw [dif_neg hi] at h; cases h

/-- Each emitted value of the replayed generator comes from the matching
yield of the underlying emission list. -/
theorem collectE_get :
    ∀ (l : List (Except String (Int × Int))) (k : Nat)
      (hk : k < (collectE l).1.length),
      ∃ hkl : k < l.length, l.get ⟨k, hkl⟩ = Except.ok ((collectE l).1.get ⟨k, hk⟩) := by
  intro l
  induction l with
  | nil => intro k hk; simp [collectE] at hk
  | cons e rest ih =>
    intro k hk
    match e with
    | Except.ok x =>
      match k with
      | 0 => exact ⟨by simp, by simp [collectE]⟩
      | k + 1 =>
        have hk2 : k < (collectE rest).1.length := by
          simpa [collectE] using hk
        obtain ⟨hkl, hget⟩ := ih k hk2
        refine ⟨by simpa using Nat.succ_lt_succ hkl, ?_⟩
        simpa [collectE] using hget
    | Except.error s => simp [collectE] at hk

/-- Index-wise characterisation of the sliding-loop emissions: the `m`-th
successful emission is the windowed sum centred at element `m + W/2` of the
current window followed by the remaining input. -/
theorem distsumLoop_get {W : Nat} :
    ∀ (rest window : List (Int × Int)) (m : Nat) (r : Int × Int),
      (W ≤ window.length ∨ rest = []) → 1 ≤ W →
      ∀ hm : m < (distsumLoop W window rest).length,
        (distsumLoop W window rest).get ⟨m, hm⟩ = Except.ok r →
        ∃ h2 : m + W / 2 < (window ++ rest).length,
          r.1 = ((window ++ rest).get ⟨m + W / 2, h2⟩).1 ∧
          ((∀ v ∈ window ++ rest, 0 ≤ v.2) →
            ((window ++ rest).get ⟨m + W / 2, h2⟩).2 ≤ r.2) := by
  intro rest
  induction rest with
  | nil =>
    intro window m r _ _ hm h
    simp only [distsumLoop] at hm h
    simp only [List.get_eq_getElem, List.getElem_map, List.getElem_range', one_mul] at h
    obtain ⟨hi, h1, h2⟩ := distsum_at_ok h
    have hni : m + W / 2 < window.length := by omega
    have hidx : m + W / 2 < (window ++ ([] : List (Int × Int))).length := by
      simp only [List.append_nil]
      exact hni
    have hget : (window ++ ([] : List (Int × Int))).get ⟨m + W / 2, hidx⟩ =
        window.get ⟨m + W / 2, hni⟩ :=
      get_list_congr (List.append_nil window) (m + W / 2) hidx
    have hcomm : W / 2 + m = m + W / 2 := by omega
    refine ⟨hidx, ?_, ?_⟩
    · rw [h1, hget, get_idx_congr window hcomm hi]
    · intro hnn
      have hle := h2 (fun v hv => hnn v (by simpa using hv))
      rw [get_idx_congr window hcomm hi] at hle
      rw [hget]
      exact hle
  | cons s rest2 ih =>
    intro window m r hlen hW hm h
    have hwlen : W ≤ window.length := by
      rcases hlen with h1 | h1
      · exact h1
      · cases h1
    obtain ⟨w0, wt, rfl⟩ : ∃ w0 wt, window = w0 :: wt := by
      cases window with
      | nil => exfalso; simp at hwlen; omega
      | cons a b => exact ⟨a, b, rfl⟩
    match m with
    | 0 =>
      simp only [distsumLoop, List.get_eq_getElem, List.getElem_cons_zero] at h
      obtain ⟨hi, h1, h2⟩ := distsum_at_ok h
      have hidx : 0 + W / 2 < ((w0 :: wt) ++ s :: rest2).length := by
        simp only [List.length_append, List.length_cons] at hi ⊢
        omega
      have hz : (0 : Nat) + W / 2 = W / 2 := by omega
      have hget : ((w0 :: wt) ++ s :: rest2).get ⟨0 + W / 2, hidx⟩ =
          (w0 :: wt).get ⟨W / 2, hi⟩ := by
        rw [get_idx_congr _ hz hidx]
        simp only [List.get_eq_getElem]
        exact List.getElem_append_left hi
      refine ⟨hidx, ?_, ?_⟩
      · rw [h1, hget]
      · intro hnn
        rw [hget]
        exact h2 (fun v hv => hnn v (List.mem_append_left _ hv))
    | m' + 1 =>
      simp only [distsumLoop, List.drop_succ_cons, List.drop_zero, List.length_cons] at hm h
      have hm2 : m' < (distsumLoop W (wt ++ [s]) rest2).length := by omega
      have hh : (distsumLoop W (wt ++ [s]) rest2).get ⟨m', hm2⟩ = Except.ok r := by
        rw [← h]
        simp only [List.get_eq_getElem, List.getElem_cons_succ]
      have hlen2 : W ≤ (wt ++ [s]).length ∨ rest2 = [] := by
        left
        have ha : (wt ++ [s]).length = wt.length + 1 := by simp
        have hb : (w0 :: wt).length = wt.length + 1 := by simp
        omega
      obtain ⟨h2x, hr1, hr2⟩ := ih (wt ++ [s]) m' r hlen2 hW hm2 hh
      have hassoc : (wt ++ [s]) ++ rest2 = wt ++ (s :: rest2) := by
        rw [List.append_assoc, List.singleton_append]
      have hlx : m' + W / 2 < (wt ++ s :: rest2).length := hassoc ▸ h2x
      have hidx : m' + 1 + W / 2 < ((w0 :: wt) ++ s :: rest2).length := by
        simp only [List.length_append, List.length_cons] at hlx ⊢
        omega
      have hci : m' + 1 + W / 2 = (m' + W / 2) + 1 := by omega
      have hget : ((w0 :: wt) ++ s :: rest2).get ⟨m' + 1 + W / 2, hidx⟩ =
          ((wt ++ [s]) ++ rest2).get ⟨m' + W / 2, h2x⟩ := by
        rw [get_idx_congr _ hci hidx]
        rw [get_list_congr hassoc (m' + W / 2) h2x]
        simp only [List.cons_append, List.get_eq_getElem, List.getElem_cons_succ]
      refine ⟨hidx, ?_, ?_⟩
      · rw [hr1, hget]
      · intro hnn
        rw [hget]
        refine hr2 ?_
        intro v hv
        rw [hassoc] at hv
        refine hnn v ?_
        simp only [List.cons_append]
        exact List.mem_cons_of_mem _ hv

theorem fst_get_congr {p q : List (Int × Int) × Option String} (h : p = q) (k : Nat)
    (hk : k < p.1.length) : p.1.get ⟨k, hk⟩ = q.1.get ⟨k, h ▸ hk⟩ := by
  subst h; rfl

theorem get_append_left_helper {α : Type} (as bs : List α) (i : Nat)
    (h : i < as.length) (hi : i < (as ++ bs).length) :
    (as ++ bs).get ⟨i, hi⟩ = as.get ⟨i, h⟩ := by
  simp only [List.get_eq_getElem]
  exact List.getElem_append_left h

theorem get_append_right_helper {α : Type} (as bs : List α) (i : Nat)
    (h : as.length ≤ i) (hi : i < (as ++ bs).length) :
    (as ++ bs).get ⟨i, hi⟩ =
      bs.get ⟨i - as.length, by simp only [List.length_append] at hi; omega⟩ := by
  simp only [List.get_eq_getElem]
  exact List.getElem_append_right h

/-- C10: every tuple emitted by the Window Smoother corresponds to the input
tuple of the same rank, carries that tuple's position, and, when every input
value is non-negative, a value at least the corresponding raw input value:
the windowed sum always includes the centre's own statistic. -/
theorem C10_center_included (W : Nat) (stats : List (Int × Int))
    (hpos : ∀ v ∈ stats, 0 ≤ v.2) (k : Nat)
    (hk : k < (distsum W stats).1.length) :
    ∃ hks : k < stats.length,
      ((distsum W stats).1.get ⟨k, hk⟩).1 = (stats.get ⟨k, hks⟩).1 ∧
      (stats.get ⟨k, hks⟩).2 ≤ ((distsum W stats).1.get ⟨k, hk⟩).2 := by
  by_cases hemp : (stats.take W).isEmpty
  · exfalso
    have hd : distsum W stats = ([], none) := by
      simp only [distsum]
      rw [if_pos hemp]
    rw [hd] at hk
    simp at hk
  · have hW : 1 ≤ W := by
      by_contra hw
      have hzero : W = 0 := by omega
      subst hzero
      simp [List.take] at hemp
    have hd : distsum W stats = collectE
        (((List.range (W / 2)).map (fun i => _distsum_at W (stats.take W) i)) ++
          distsumLoop W (stats.take W) (stats.drop W)) := by
      simp only [distsum]
      rw [if_neg hemp]
    have hkC : k < (collectE
        (((List.range (W / 2)).map (fun i => _distsum_at W (stats.take W) i)) ++
          distsumLoop W (stats.take W) (stats.drop W))).1.length := by
      rw [← hd]
      exact hk
    have hgx : (distsum W stats).1.get ⟨k, hk⟩ = (collectE
        (((List.range (W / 2)).map (fun i => _distsum_at W (stats.take W) i)) ++
          distsumLoop W (stats.take W) (stats.drop W))).1.get ⟨k, hkC⟩ :=
      fst_get_congr hd k hk
    rw [hgx]
    obtain ⟨hkl, hget⟩ := collectE_get _ k hkC
    have hplen : ((List.range (W / 2)).map
        (fun i => _distsum_at W (stats.take W) i)).length = W / 2 := by
      simp
    rcases Nat.lt_or_ge k (W / 2) with hksmall | hkbig
    · have hkp : k < ((List.range (W / 2)).map
          (fun i => _distsum_at W (stats.take W) i)).length := by omega
      rw [get_append_left_helper _ _ k hkp hkl] at hget
      have hmap : ((List.range (W / 2)).map
          (fun i => _distsum_at W (stats.take W) i)).get ⟨k, hkp⟩ =
          _distsum_at W (stats.take W) k := by
        simp only [List.get_eq_getElem, List.getElem_map, List.getElem_range]
      rw [hmap] at hget
      obtain ⟨hi, h1, h2⟩ := distsum_at_ok hget
      have hklen : k < stats.length := by
        have hminle : (stats.take W).length ≤ stats.length := by
          rw [List.length_take]
          exact Nat.min_le_right _ _
        omega
      have heq : (stats.take W).get ⟨k, hi⟩ = stats.get ⟨k, hklen⟩ := by
        simp only [List.get_eq_getElem, List.getElem_take]
      refine ⟨hklen, ?_, ?_⟩
      · rw [h1, heq]
      · have hnnw : ∀ v ∈ stats.take W, 0 ≤ v.2 := fun v hv =>
          hpos v ((List.take_sublist W stats).subset hv)
        have hle := h2 hnnw
        rw [heq] at hle
        exact hle
    · have hkm : k - W / 2 < (distsumLoop W (stats.take W) (stats.drop W)).length := by
        have hlen2 : (((List.range (W / 2)).map
            (fun i => _distsum_at W (stats.take W) i)) ++
            distsumLoop W (stats.take W) (stats.drop W)).length =
            W / 2 + (distsumLoop W (stats.take W) (stats.drop W)).length := by
          simp
        omega
      have hkp : ((List.range (W / 2)).map
          (fun i => _distsum_at W (stats.take W) i)).length ≤ k := by omega
      rw [get_append_right_helper _ _ k hkp hkl] at hget
      have hsub : k - ((List.range (W / 2)).map
          (fun i => _distsum_at W (stats.take W) i)).length = k - W / 2 := by
        omega
      rw [get_idx_congr _ hsub _] at hget
      have hlen : W ≤ (stats.take W).length ∨ stats.drop W = [] := by
        by_cases hdrop : stats.drop W = []
        · exact Or.inr hdrop
        · left
          have hnle : ¬ stats.length ≤ W := by
            intro hle
            exact hdrop (List.drop_eq_nil_of_le hle)
          rw [List.length_take]
          exact Nat.le_min.mpr ⟨le_refl _, by omega⟩
      obtain ⟨h2x, hr1, hr2⟩ := distsumLoop_get (stats.drop W) (stats.take W)
        (k - W / 2) _ hlen hW _ hget
      have htad : stats.take W ++ stats.drop W = stats := List.take_append_drop W stats
      have hidxeq : (k - W / 2) + W / 2 = k := by omega
      have hklen : k < stats.length := by
        have hlen3 : (stats.take W ++ stats.drop W).length = stats.length := by
          rw [htad]
        omega
      have hb2 : k < (stats.take W ++ stats.drop W).length := by
        rw [htad]
        exact hklen
      have hport : (stats.take W ++ stats.drop W).get ⟨(k - W / 2) + W / 2, h2x⟩ =
          stats.get ⟨k, hklen⟩ := by
        rw [get_idx_congr _ hidxeq h2x]
        exact get_list_congr htad k hb2
      refine ⟨hklen, ?_, ?_⟩
      · rw [hr1, hport]
      · have hle := hr2 (fun v hv => hpos v (htad ▸ hv))
        rw [hport] at hle
        exact hle

/-- Witness for the centre-inclusion theorem at a concrete two-tuple
stream. -/
theorem C10_center_included_witness :
    (∀ v ∈ [((10 : Int), (2 : Int)), (11, 3)], 0 ≤ v.2) ∧
    ∃ hk : 0 < (distsum 5 [((10 : Int), (2 : Int)), (11, 3)]).1.length,
    ∃ hks : 0 < ([((10 : Int), (2 : Int)), (11, 3)] : List (Int × Int)).length,
      ((distsum 5 [((10 : Int), (2 : Int)), (11, 3)]).1.get ⟨0, hk⟩).1 =
        (([((10 : Int), (2 : Int)), (11, 3)] : List (Int × Int)).get ⟨0, hks⟩).1 ∧
      (([((10 : Int), (2 : Int)), (11, 3)] : List (Int × Int)).get ⟨0, hks⟩).2 ≤
        ((distsum 5 [((10 : Int), (2 : Int)), (11, 3)]).1.get ⟨0, hk⟩).2 :=
  ⟨by decide, by decide,
    C10_center_included 5 [((10 : Int), (2 : Int)), (11, 3)] (by decide) 0 (by decide)⟩

/-- C9: resampling is deterministic under a fixed seed.  The process-global
`np.random` generator is embedded as an explicit state (seed plus draw
counter, with `rand` abstracting the seeded pseudorandom index stream): two
pipeline runs started from the state produced by seeding with the same value
over identical inputs give identical outputs, and every resample draws
exactly `resample` values with replacement from the per-record per-position
fragment.  Uniformity of the draws is probabilistic and outside the
embedding. -/
theorem C9_resample_determinism (rand : Nat → Nat → Nat) (seed : Nat)
    (xs ys : List SigRec) (min_coverage resample : Nat)
    (from_position to_position : Option Nat) (st1 st2 : RngState)
    (h1 : st1 = npSeed seed) (h2 : st2 = npSeed seed)
    (f : SigRec) (i : Nat) (st : RngState) (hres : 0 < resample)
    (hfrag : fragment_at f i ≠ []) :
    concat_pairsR rand xs ys min_coverage resample from_position to_position st1 =
      concat_pairsR rand xs ys min_coverage resample from_position to_position st2 ∧
    (signal_at rand f i resample st).1.length = resample ∧
    ∀ v ∈ (signal_at rand f i resample st).1, v ∈ fragment_at f i := by
  subst h1
  subst h2
  refine ⟨rfl, ?_, ?_⟩
  · simp only [signal_at]
    rw [if_pos hres]
    simp [npChoice]
  · intro v hv
    simp only [signal_at] at hv
    rw [if_pos hres] at hv
    simp only [npChoice] at hv
    obtain ⟨t, _, hvv⟩ := List.mem_map.mp hv
    have hlen : 0 < (fragment_at f i).length := List.length_pos.mpr hfrag
    have hm : rand st.1 (st.2 + t) % (fragment_at f i).length <
        (fragment_at f i).length := Nat.mod_lt _ hlen
    rw [← hvv, List.getD_eq_getElem _ _ hm]
    exact List.getElem_mem hm

/-- Witness for the resampling determinism theorem at a concrete seeded run:
one record with signal `[5, 6]` occupying one two-sample position, resample
size 3, seed 7. -/
theorem C9_resample_determinism_witness :
    npSeed 7 = npSeed 7 ∧ (0 : Nat) < 3 ∧
    fragment_at ⟨0, [5, 6], [2]⟩ 0 ≠ [] ∧
    (concat_pairsR (fun s c => s + c) [⟨0, [5, 6], [2]⟩] [⟨0, [5, 6], [2]⟩]
        1 3 none none (npSeed 7) =
      concat_pairsR (fun s c => s + c) [⟨0, [5, 6], [2]⟩] [⟨0, [5, 6], [2]⟩]
        1 3 none none (npSeed 7) ∧
      (signal_at (fun s c => s + c) ⟨0, [5, 6], [2]⟩ 0 3 (npSeed 7)).1.length = 3 ∧
      ∀ v ∈ (signal_at (fun s c => s + c) ⟨0, [5, 6], [2]⟩ 0 3 (npSeed 7)).1,
        v ∈ fragment_at ⟨0, [5, 6], [2]⟩ 0) :=
  ⟨rfl, by decide, by decide,
    C9_resample_determinism (fun s c => s + c) 7 [⟨0, [5, 6], [2]⟩] [⟨0, [5, 6], [2]⟩]
      1 3 none none (npSeed 7) (npSeed 7) rfl rfl ⟨0, [5, 6], [2]⟩ 0 (npSeed 7)
      (by decide) (by decide)⟩

theorem not_kLt_of_kLe {p q : Nat × Int} (h : kLe p q) : ¬ kLt q p := by
  unfold kLe at h; unfold kLt; omega

theorem kLt_of_not_kLe {p q : Nat × Int} (h : ¬ kLe p q) : kLt q p := by
  unfold kLe at h; unfold kLt; omega

/-- Record-level view of the binary-search split on a `(start, -end)`-sorted
list. -/
theorem ins_split {L : List Fast5} (hsort : L.Pairwise ovLe) (q : Fast5)
    (i : Nat) (h : i < L.length) :
    (i < bisect_left (L.map key) (key q) → kLt (key (L.get ⟨i, h⟩)) (key q)) ∧
    (bisect_left (L.map key) (key q) ≤ i → ¬ kLt (key (L.get ⟨i, h⟩)) (key q)) := by
  have h2 : i < (L.map key).length := by simpa using h
  have hs := bisect_left_split (L.map key) (key q) (keys_pairwise hsort) i h2
  rw [keys_get i h h2] at hs
  exact hs

theorem ins_le_len (L : List Fast5) (q : Fast5) :
    bisect_left (L.map key) (key q) ≤ L.length := by
  have := bisect_left_le_length (L.map key) (key q)
  simpa using this

theorem overlap_none_no_reach {q : Fast5} {L : List Fast5} (hsort : L.Pairwise ovLe)
    (hnone : Fast5.overlap q L = none) :
    ∀ b ∈ L.drop (bisect_left (L.map key) (key q) - 1), ¬ overlaps q b := by
  intro b hb hov
  have := overlap_isSome_of_reach hsort hb hov
  rw [hnone] at this
  cases this

theorem index_of_mem_drop {α : Type} {L : List α} {n : Nat} {v : α}
    (h : v ∈ L.drop n) : ∃ i, ∃ hi : i < L.length, n ≤ i ∧ L.get ⟨i, hi⟩ = v := by
  obtain ⟨⟨j, hj⟩, hje⟩ := List.mem_iff_get.mp h
  have hj2 : n + j < L.length := by
    simp only [List.length_drop] at hj
    omega
  refine ⟨n + j, hj2, by omega, ?_⟩
  rw [← hje]
  simp only [List.get_eq_getElem]
  exact (List.getElem_drop L).symm

/-- Key survival lemma: a record of dataset `A` that genuinely overlaps a
record `y` of the sorted list `M` and whose key is strictly below `y`'s key
always finds a partner when queried against `M`: `y` itself lies in the
scanned suffix and no earlier break can fire. -/
theorem key_lemma {M : List Fast5} (hM : M.Pairwise ovLe) {y e : Fast5}
    (hy : y ∈ M) (hov : overlaps y e) (hk : kLt (key e) (key y)) :
    (Fast5.overlap e M).isSome := by
  obtain ⟨⟨iy, hiy⟩, hiye⟩ := List.mem_iff_get.mp hy
  have hge : bisect_left (M.map key) (key e) - 1 ≤ iy := by
    by_contra hlt
    push_neg at hlt
    have hklt := (ins_split hM e iy hiy).1 (by omega)
    rw [hiye] at hklt
    exact kLt_asymm hklt hk
  have hmem : y ∈ M.drop (bisect_left (M.map key) (key e) - 1) := by
    rw [← hiye]
    exact mem_drop_of_le_index M _ iy hiy hge
  exact overlap_isSome_of_reach hM hmem ⟨hov.2, hov.1⟩

/-- Blocker extraction: when a record `f` genuinely overlapping `y ∈ M` is
nonetheless rejected by its query against the sorted survivor list `M`, the
element just before `f`'s insertion point is a blocker `z` nested strictly
between `y`'s start and `f`'s start, and `z`'s own pass-one partner `g1`
starts strictly before `f`. -/
theorem pruned_blocker {M As : List Fast5} (hM : M.Pairwise ovLe)
    {f y : Fast5} (hy : y ∈ M) (hov : overlaps f y) (hfe : f.start < f.end_)
    (hnone : Fast5.overlap f M = none)
    (hsurv : ∀ z ∈ M, (Fast5.overlap z As).isSome) :
    ∃ z g1, z ∈ M ∧ kLe (key y) (key z) ∧ z.end_ ≤ f.start ∧
      overlaps z g1 ∧ g1 ∈ As.drop (bisect_left (As.map key) (key z) - 1) := by
  have noReach := overlap_none_no_reach hM hnone
  obtain ⟨⟨iy, hiy⟩, hiye⟩ := List.mem_iff_get.mp hy
  have hyc : iy < bisect_left (M.map key) (key f) - 1 := by
    by_contra hge
    push_neg at hge
    refine noReach y ?_ hov
    rw [← hiye]
    exact mem_drop_of_le_index M _ iy hiy hge
  have hinsle := ins_le_len M f
  have hzlt : bisect_left (M.map key) (key f) - 1 < M.length := by omega
  have hzmem : M.get ⟨bisect_left (M.map key) (key f) - 1, hzlt⟩ ∈
      M.drop (bisect_left (M.map key) (key f) - 1) :=
    mem_drop_of_le_index M _ _ hzlt (le_refl _)
  have hnov : ¬ overlaps f (M.get ⟨bisect_left (M.map key) (key f) - 1, hzlt⟩) :=
    noReach _ hzmem
  have hkz : kLt (key (M.get ⟨bisect_left (M.map key) (key f) - 1, hzlt⟩)) (key f) :=
    (ins_split hM f _ hzlt).1 (by omega)
  have hkyz : kLe (key y)
      (key (M.get ⟨bisect_left (M.map key) (key f) - 1, hzlt⟩)) := by
    have hp := List.pairwise_iff_get.mp hM ⟨iy, hiy⟩
      ⟨bisect_left (M.map key) (key f) - 1, hzlt⟩ hyc
    rw [hiye] at hp
    exact hp
  have hzs : (M.get ⟨bisect_left (M.map key) (key f) - 1, hzlt⟩).start ≤ f.start :=
    kLt_key_start hkz
  have hze : (M.get ⟨bisect_left (M.map key) (key f) - 1, hzlt⟩).end_ ≤ f.start := by
    unfold overlaps at hnov
    omega
  have hzsurv := hsurv _ (List.get_mem M _ hzlt)
  obtain ⟨g1, hg1⟩ := Option.isSome_iff_exists.mp hzsurv
  obtain ⟨hg1reach, hg1ov⟩ := overlap_some_sound hg1
  exact ⟨_, g1, List.get_mem M _ hzlt, hkyz, hze, hg1ov, hg1reach⟩

/-- Descent: among the genuine partners of `y ∈ M` inside `As` whose key is
at or above `y`'s, repeatedly replacing a partner rejected by its `M`-query
with the strictly earlier-starting partner produced by its blocker
eventually reaches a partner that survives, provided no reachable record
with key below `y`'s genuinely overlaps `y`. -/
theorem desc_unpruned {As M : List Fast5} (hAs : As.Pairwise ovLe)
    (hM : M.Pairwise ovLe) (hAe : ∀ g ∈ As, g.start < g.end_)
    (hsurv : ∀ z ∈ M, (Fast5.overlap z As).isSome)
    {y : Fast5} (hy : y ∈ M)
    (Hno : ∀ g ∈ As.drop (bisect_left (As.map key) (key y) - 1),
      kLt (key g) (key y) → ¬ overlaps y g) :
    ∀ n f, f ∈ As → overlaps y f → kLe (key y) (key f) → f.start ≤ n →
      ∃ p ∈ As, overlaps y p ∧ kLe (key y) (key p) ∧ (Fast5.overlap p M).isSome := by
  intro n
  induction n using Nat.strong_induction_on with
  | _ n ih =>
    intro f hfA hovf hkf hfn
    by_cases hp : (Fast5.overlap f M).isSome
    · exact ⟨f, hfA, hovf, hkf, hp⟩
    · have hnone : Fast5.overlap f M = none := Option.not_isSome_iff_eq_none.mp hp
      obtain ⟨z, g1, hzM, hkyz, hze, hovzg, hg1reach⟩ :=
        pruned_blocker hM hy ⟨hovf.2, hovf.1⟩ (hAe f hfA) hnone hsurv
      have hg1A : g1 ∈ As := List.drop_subset _ _ hg1reach
      have hyzs : y.start ≤ z.start := kLe_key_start hkyz
      have hovyg1 : overlaps y g1 := by
        unfold overlaps at hovf hovzg ⊢
        omega
      have hstart : g1.start < f.start := by
        unfold overlaps at hovzg
        omega
      by_cases hkg1 : kLe (key y) (key g1)
      · exact ih g1.start (by omega) g1 hg1A hovyg1 hkg1 (le_refl _)
      · exfalso
        have hklt : kLt (key g1) (key y) := kLt_of_not_kLe hkg1
        have hmono : bisect_left (As.map key) (key y) ≤
            bisect_left (As.map key) (key z) :=
          bisect_left_mono (As.map key) (keys_pairwise hAs) hkyz
        have hsubset : As.drop (bisect_left (As.map key) (key z) - 1) ⊆
            As.drop (bisect_left (As.map key) (key y) - 1) := by
          intro a ha
          have hdd : As.drop (bisect_left (As.map key) (key z) - 1) =
              (As.drop (bisect_left (As.map key) (key y) - 1)).drop
                ((bisect_left (As.map key) (key z) - 1) -
                  (bisect_left (As.map key) (key y) - 1)) := by
            rw [List.drop_drop]
            congr 1
            omega
          rw [hdd] at ha
          exact List.drop_subset _ _ ha
        exact Hno g1 (hsubset hg1reach) hklt hovyg1

/-- Survival of the second pruning pass: every record of the sorted survivor
list `B1s = M` (each of which found a partner in the sorted `As`) still finds
a partner when queried against `As` filtered to the records that themselves
find a partner in `M`.  This is the heart of the idempotence of the two-pass
mutual pruning. -/
theorem overlap_survives {As M : List Fast5} (hAs : As.Pairwise ovLe)
    (hM : M.Pairwise ovLe) (hAe : ∀ g ∈ As, g.start < g.end_)
    (hsurv : ∀ z ∈ M, (Fast5.overlap z As).isSome)
    {y : Fast5} (hy : y ∈ M) :
    (Fast5.overlap y (As.filter (fun x => (Fast5.overlap x M).isSome))).isSome := by
  have hA1sort : (As.filter (fun x => (Fast5.overlap x M).isSome)).Pairwise ovLe :=
    List.Pairwise.filter _ hAs
  have hsucc : ∀ p ∈ As, overlaps y p → kLe (key y) (key p) →
      (Fast5.overlap p M).isSome →
      (Fast5.overlap y (As.filter (fun x => (Fast5.overlap x M).isSome))).isSome := by
    intro p hpA hovp hkp hps
    have hpA1 : p ∈ As.filter (fun x => (Fast5.overlap x M).isSome) :=
      List.mem_filter.mpr ⟨hpA, hps⟩
    obtain ⟨⟨jp, hjp⟩, hjpe⟩ := List.mem_iff_get.mp hpA1
    have hge : bisect_left ((As.filter (fun x => (Fast5.overlap x M).isSome)).map key)
        (key y) - 1 ≤ jp := by
      by_contra hlt
      push_neg at hlt
      have hklt := (ins_split hA1sort y jp hjp).1 (by omega)
      rw [hjpe] at hklt
      exact not_kLt_of_kLe hkp hklt
    refine overlap_isSome_of_reach hA1sort ?_ hovp
    rw [← hjpe]
    exact mem_drop_of_le_index _ _ jp hjp hge
  obtain ⟨f0, hf0⟩ := Option.isSome_iff_exists.mp (hsurv y hy)
  obtain ⟨hf0reach, hf0ov⟩ := overlap_some_sound hf0
  have hf0A : f0 ∈ As := List.drop_subset _ _ hf0reach
  by_cases hh0 : ∃ hlt : bisect_left (As.map key) (key y) - 1 < As.length,
      1 ≤ bisect_left (As.map key) (key y) ∧
      overlaps y (As.get ⟨bisect_left (As.map key) (key y) - 1, hlt⟩)
  · obtain ⟨hlt, hle1, hovh⟩ := hh0
    have hkh0 : kLt (key (As.get ⟨bisect_left (As.map key) (key y) - 1, hlt⟩))
        (key y) := (ins_split hAs y _ hlt).1 (by omega)
    have hh0s : (Fast5.overlap
        (As.get ⟨bisect_left (As.map key) (key y) - 1, hlt⟩) M).isSome :=
      key_lemma hM hy hovh hkh0
    have hh0A1 : As.get ⟨bisect_left (As.map key) (key y) - 1, hlt⟩ ∈
        As.filter (fun x => (Fast5.overlap x M).isSome) :=
      List.mem_filter.mpr ⟨List.get_mem As _ hlt, hh0s⟩
    obtain ⟨⟨j0, hj0⟩, hj0e⟩ := List.mem_iff_get.mp hh0A1
    have hj0lt : j0 < bisect_left
        ((As.filter (fun x => (Fast5.overlap x M).isSome)).map key) (key y) := by
      by_contra hge
      push_neg at hge
      have hnk := (ins_split hA1sort y j0 hj0).2 hge
      rw [hj0e] at hnk
      exact hnk hkh0
    have hi1le := ins_le_len (As.filter (fun x => (Fast5.overlap x M).isSome)) y
    have hstarlt : bisect_left
        ((As.filter (fun x => (Fast5.overlap x M).isSome)).map key) (key y) - 1 <
        (As.filter (fun x => (Fast5.overlap x M).isSome)).length := by omega
    have hkstar : kLt (key ((As.filter (fun x => (Fast5.overlap x M).isSome)).get
        ⟨bisect_left ((As.filter (fun x => (Fast5.overlap x M).isSome)).map key)
          (key y) - 1, hstarlt⟩)) (key y) :=
      (ins_split hA1sort y _ hstarlt).1 (by omega)
    have hkey1 : kLe (key (As.get ⟨bisect_left (As.map key) (key y) - 1, hlt⟩))
        (key ((As.filter (fun x => (Fast5.overlap x M).isSome)).get
          ⟨bisect_left ((As.filter (fun x => (Fast5.overlap x M).isSome)).map key)
            (key y) - 1, hstarlt⟩)) := by
      rcases Nat.lt_or_ge j0 (bisect_left
          ((As.filter (fun x => (Fast5.overlap x M).isSome)).map key) (key y) - 1)
        with hc | hc
      · have hpw := List.pairwise_iff_get.mp hA1sort ⟨j0, hj0⟩ ⟨_, hstarlt⟩ hc
        rw [hj0e] at hpw
        exact hpw
      · have hje : j0 = bisect_left
            ((As.filter (fun x => (Fast5.overlap x M).isSome)).map key) (key y) - 1 := by
          omega
        rw [← hj0e, get_idx_congr _ hje hj0]
        exact kLe_refl _
    have hstarAs : (As.filter (fun x => (Fast5.overlap x M).isSome)).get
        ⟨bisect_left ((As.filter (fun x => (Fast5.overlap x M).isSome)).map key)
          (key y) - 1, hstarlt⟩ ∈ As :=
      (List.filter_sublist As).subset (List.get_mem _ _ hstarlt)
    obtain ⟨⟨js, hjs⟩, hjse⟩ := List.mem_iff_get.mp hstarAs
    have hjslt : js < bisect_left (As.map key) (key y) := by
      by_contra hge
      push_neg at hge
      have hnk := (ins_split hAs y js hjs).2 hge
      rw [hjse] at hnk
      exact hnk hkstar
    have hkey2 : kLe (key ((As.filter (fun x => (Fast5.overlap x M).isSome)).get
        ⟨bisect_left ((As.filter (fun x => (Fast5.overlap x M).isSome)).map key)
          (key y) - 1, hstarlt⟩))
        (key (As.get ⟨bisect_left (As.map key) (key y) - 1, hlt⟩)) := by
      rcases Nat.lt_or_ge js (bisect_left (As.map key) (key y) - 1) with hc | hc
      · have hpw := List.pairwise_iff_get.mp hAs ⟨js, hjs⟩ ⟨_, hlt⟩ hc
        rw [hjse] at hpw
        exact hpw
      · have hje : js = bisect_left (As.map key) (key y) - 1 := by omega
        rw [← hjse, get_idx_congr _ hje hjs]
        exact kLe_refl _
    have hkeyeq := key_inj (kLe_antisymm hkey2 hkey1)
    refine overlap_isSome_of_reach hA1sort
      (mem_drop_of_le_index _ _ _ hstarlt (le_refl _)) ?_
    rw [hkeyeq]
    exact hovh
  · have Hno : ∀ g ∈ As.drop (bisect_left (As.map key) (key y) - 1),
        kLt (key g) (key y) → ¬ overlaps y g := by
      intro g hg hkg hovg
      obtain ⟨j, hjlt, hjge, hje⟩ := index_of_mem_drop hg
      have hjlt2 : j < bisect_left (As.map key) (key y) := by
        by_contra hge2
        push_neg at hge2
        have hnk := (ins_split hAs y j hjlt).2 hge2
        rw [hje] at hnk
        exact hnk hkg
      have hjeq : j = bisect_left (As.map key) (key y) - 1 := by omega
      refine hh0 ⟨by omega, by omega, ?_⟩
      have hgg : As.get ⟨bisect_left (As.map key) (key y) - 1, by omega⟩ = g := by
        rw [← hje]
        exact (get_idx_congr As hjeq hjlt).symm
      rw [hgg]
      exact hovg
    have hkf0 : kLe (key y) (key f0) := by
      by_cases hk : kLt (key f0) (key y)
      · exact absurd hf0ov (Hno f0 hf0reach hk)
      · exact kLe_of_not_kLt hk
    obtain ⟨p, hpA, hovp, hkp, hps⟩ :=
      desc_unpruned hAs hM hAe hsurv hy Hno f0.start f0 hf0A hf0ov hkf0 (le_refl _)
    exact hsucc p hpA hovp hkp hps

/-- C7: the two-pass mutual pruning is idempotent on record lists satisfying
the documented `start < end` invariant: applying `prune` to its own output
pair returns that pair unchanged.  Every survivor of `B` still finds a
partner among the surviving `A` records (the survival theorem), so the
second application filters nothing. -/
theorem C7_prune_idempotent (A B : List Fast5)
    (hA : ∀ f ∈ A, f.start < f.end_) (_hB : ∀ f ∈ B, f.start < f.end_) :
    prune (prune A B).1 (prune A B).2 = prune A B := by
  have hAs_sorted : (sortOv A).Pairwise ovLe := List.sorted_insertionSort ovLe A
  have hB1sorted : (sortOv ((B.filter
      (fun y => (Fast5.overlap y (sortOv A)).isSome)))).Pairwise ovLe :=
    List.sorted_insertionSort ovLe _
  have hA1sorted : ((sortOv A).filter (fun x => (Fast5.overlap x (sortOv (B.filter
      (fun y => (Fast5.overlap y (sortOv A)).isSome)))).isSome)).Pairwise ovLe :=
    List.Pairwise.filter _ hAs_sorted
  have hAe : ∀ g ∈ sortOv A, g.start < g.end_ := fun g hg =>
    hA g ((List.perm_insertionSort ovLe A).mem_iff.mp hg)
  have hsurvB : ∀ z ∈ sortOv (B.filter
      (fun y => (Fast5.overlap y (sortOv A)).isSome)),
      (Fast5.overlap z (sortOv A)).isSome := by
    intro z hz
    have hz2 : z ∈ B.filter (fun y => (Fast5.overlap y (sortOv A)).isSome) :=
      (List.perm_insertionSort ovLe _).mem_iff.mp hz
    exact (List.mem_filter.mp hz2).2
  have hkeep : ∀ y ∈ sortOv (B.filter
      (fun y => (Fast5.overlap y (sortOv A)).isSome)),
      (Fast5.overlap y ((sortOv A).filter (fun x => (Fast5.overlap x (sortOv (B.filter
        (fun y => (Fast5.overlap y (sortOv A)).isSome)))).isSome))).isSome :=
    fun y hy => overlap_survives hAs_sorted hB1sorted hAe hsurvB hy
  have hsortA1 : sortOv ((sortOv A).filter (fun x => (Fast5.overlap x (sortOv (B.filter
      (fun y => (Fast5.overlap y (sortOv A)).isSome)))).isSome)) =
      (sortOv A).filter (fun x => (Fast5.overlap x (sortOv (B.filter
        (fun y => (Fast5.overlap y (sortOv A)).isSome)))).isSome) :=
    List.Sorted.insertionSort_eq hA1sorted
  have hB2 : (sortOv (B.filter
      (fun y => (Fast5.overlap y (sortOv A)).isSome))).filter
      (fun y => (Fast5.overlap y ((sortOv A).filter
        (fun x => (Fast5.overlap x (sortOv (B.filter
          (fun y => (Fast5.overlap y (sortOv A)).isSome)))).isSome))).isSome) =
      sortOv (B.filter (fun y => (Fast5.overlap y (sortOv A)).isSome)) :=
    List.filter_eq_self.mpr (fun a ha => hkeep a ha)
  have hsortB1 : sortOv (sortOv (B.filter
      (fun y => (Fast5.overlap y (sortOv A)).isSome))) =
      sortOv (B.filter (fun y => (Fast5.overlap y (sortOv A)).isSome)) :=
    List.Sorted.insertionSort_eq hB1sorted
  have hA2 : ∀ (P : Fast5 → Bool),
      ((sortOv A).filter P).filter P = (sortOv A).filter P := fun P =>
    List.filter_eq_self.mpr (fun a ha => (List.mem_filter.mp ha).2)
  show prune ((sortOv A).filter (fun x => (Fast5.overlap x (sortOv (B.filter
      (fun y => (Fast5.overlap y (sortOv A)).isSome)))).isSome))
      (sortOv (B.filter (fun y => (Fast5.overlap y (sortOv A)).isSome))) = _
  unfold prune
  simp only [hsortA1]
  simp only [hB2, hsortB1, hA2]

/-- Witness for the pruning idempotence theorem at a concrete pair of
single-record datasets. -/
theorem C7_prune_idempotent_witness :
    (∀ f ∈ [(⟨0, 2⟩ : Fast5)], f.start < f.end_) ∧
    (∀ f ∈ [(⟨1, 3⟩ : Fast5)], f.start < f.end_) ∧
    prune (prune [(⟨0, 2⟩ : Fast5)] [(⟨1, 3⟩ : Fast5)]).1
        (prune [(⟨0, 2⟩ : Fast5)] [(⟨1, 3⟩ : Fast5)]).2 =
      prune [(⟨0, 2⟩ : Fast5)] [(⟨1, 3⟩ : Fast5)] :=
  ⟨by decide, by decide,
    C7_prune_idempotent [⟨0, 2⟩] [⟨1, 3⟩] (by decide) (by decide)⟩

end Modena
